import Mathlib

/-!
Verification of the law-search system (`find_law.py`).

Texts are modelled as `List Char`, matching Python's view of a `str` as a
sequence of code points (indexing, slicing and `find` all count code
points).  Python builtins used by the source are modelled below
(`pyLower`, `pyStrip`, `findFrom` for `str.find`, `splitOnChar` for
`str.split`, `pySortDesc` for `sorted(key, reverse=True)`).  The unbounded
`while True` scan loop of `FindLawProcessor.search` is modelled with a
fuel parameter; `none` means the loop has not terminated within the given
fuel.  File IO (index persistence) is out of scope: `search` takes the
decoded list of laws, `build_index` takes the decoded directory listing.
-/

namespace FindLaw

/-- A Python string literal as a list of code points. -/
def chars (s : String) : List Char := s.toList

/-- One code point's image under Python `str.lower`.  Modelled for ASCII
letters and for U+0130 (LATIN CAPITAL LETTER I WITH DOT ABOVE), whose
Python lowercase is the two code points "i" ++ COMBINING DOT ABOVE — the
one common case where lowering changes the length.  Other characters
(in particular all CJK characters of the corpus) are fixed points. -/
def pyLowerChar (c : Char) : List Char :=
  if c = 'İ' then ['i', '̇'] else [c.toLower]

/-- Python `str.lower`. -/
def pyLower (s : List Char) : List Char := s.flatMap pyLowerChar

/-- Whitespace for Python `str.strip` (the ASCII whitespace actually
occurring in extracted text). -/
def isSpaceChar (c : Char) : Bool :=
  c = ' ' || c = '\t' || c = '\n' || c = '\r' || c = '\x0b' || c = '\x0c'

/-- Python `str.strip`. -/
def pyStrip (s : List Char) : List Char :=
  ((s.dropWhile isSpaceChar).reverse.dropWhile isSpaceChar).reverse

/-- Python `str.split(sep)` for a one-character separator: `splitOnChar c s`
cuts `s` at every occurrence of `c`; the empty string splits to `[[]]`. -/
def splitOnChar (sep : Char) : List Char → List (List Char)
  | [] => [[]]
  | c :: cs =>
    if c = sep then [] :: splitOnChar sep cs
    else
      match splitOnChar sep cs with
      | [] => [[c]]
      | l :: ls => (c :: l) :: ls

/-- Helper for Python `str.find`: try positions `i, i+1, ...` (at most `n`
of them) for an occurrence of `kw`. -/
def findFromGo (text kw : List Char) (i : Nat) : Nat → Option Nat
  | 0 => none
  | n + 1 =>
    if kw.isPrefixOf (text.drop i) then some i
    else findFromGo text kw (i + 1) n

/-- Python `text.find(kw, start)`: the least index `≥ start` where `kw`
occurs in `text` (`none` for Python's `-1`).  Candidate positions run from
`start` to `len(text)` inclusive, so the empty pattern is found at `start`
whenever `start ≤ len(text)`, exactly as in Python. -/
def findFrom (text kw : List Char) (start : Nat) : Option Nat :=
  findFromGo text kw start (text.length + 1 - start)

/-- Python `kw in text`. -/
def inStr (kw text : List Char) : Bool := (findFrom text kw 0).isSome

/-- Stable insertion into a descending-sorted list: `x` goes before the
first element whose key is strictly below its own, hence after all earlier
elements with an equal key. -/
def insertDesc (key : α → Nat) (x : α) : List α → List α
  | [] => [x]
  | y :: ys => if key x < key y then y :: insertDesc key x ys else x :: y :: ys

/-- Extensional model of Python `sorted(l, key=key, reverse=True)`:
a stable sort into non-increasing key order. -/
def pySortDesc (key : α → Nat) : List α → List α
  | [] => []
  | x :: xs => insertDesc key x (pySortDesc key xs)

/-- One recorded match: the `{"start": idx, "end": idx + len(keyword)}`
dictionary of `FindLawProcessor.search`.  The source's `end` key is a Lean
keyword, so the field is called `stop`. -/
structure Span where
  start : Nat
  stop : Nat
deriving DecidableEq

/-- The `while True` scan of `FindLawProcessor.search` (lines 158-170):
repeatedly `find` the keyword, record `[idx, idx+len)`, restart at
`idx + len(keyword)`.  `fuel` bounds the number of iterations; `none`
means the loop did not finish within `fuel` iterations. -/
def scanLoop (textLower kwLower : List Char) : Nat → Nat → Option (List Span)
  | 0, _ => none
  | fuel + 1, start =>
    match findFrom textLower kwLower start with
    | none => some []
    | some idx =>
      match scanLoop textLower kwLower fuel (idx + kwLower.length) with
      | none => none
      | some rest => some (⟨idx, idx + kwLower.length⟩ :: rest)

/-- The character class `[零一二三四五六十百千七八九]` of
`extract_article_title`'s regular expressions. -/
def cnNumerals : List Char := chars "零一二三四五六七八九十百千"

/-- Try to match the regex tail `[零一...千]+X` (with `X` the closing
glyph `条` or `章`) at the position right after a `第`; the match is the
greedy numeral run.  Because neither `第` nor the closing glyph is in the
numeral class, greedy matching with backtracking succeeds exactly when the
maximal numeral run is non-empty and is followed by the closing glyph. -/
def markerAt (endCh : Char) (rest : List Char) : Option (List Char) :=
  let run := rest.takeWhile (fun c => cnNumerals.contains c)
  if run = [] then none
  else
    match rest.drop run.length with
    | c :: _ => if c = endCh then some ('第' :: run ++ [endCh]) else none
    | [] => none

/-- `re.search` for the pattern `第[零一...千]+X`: leftmost match.  Every
match starts at a literal `第`, so scanning for `第` and trying the tail
there is exactly leftmost-match semantics. -/
def reSearchMarker (endCh : Char) : List Char → Option (List Char)
  | [] => none
  | c :: rest =>
    if c = '第' then
      match markerAt endCh rest with
      | some l => some l
      | none => reSearchMarker endCh rest
    else reSearchMarker endCh rest

/-- `FindLawProcessor.extract_article_title`: the article pattern first,
then the chapter pattern, then the first 30 characters (with `...` when
truncated). -/
def extract_article_title (content : List Char) : List Char :=
  match reSearchMarker '条' content with
  | some l => l
  | none =>
    match reSearchMarker '章' content with
    | some l => l
    | none =>
      if content.length > 30 then content.take 30 ++ chars "..." else content

/-- One value of the `matched_articles` dictionary: the
`{"title": ..., "content": ..., "matches": [...]}` record. -/
structure Entry where
  title : List Char
  content : List Char
  matchList : List Span
deriving DecidableEq

/-- The `matched_articles` dictionary: Python dicts iterate in insertion
order, so it is an association list ordered by first insertion. -/
abbrev Dict := List (List Char × Entry)

/-- Lines 150-170 of `search` restricted to the dictionary: if the label is
absent, insert `{"title": label, "content": content, "matches": spans}` at
the end; if present, keep the stored content and append the new spans. -/
def addMatches : Dict → List Char → List Char → List Span → Dict
  | [], key, content, spans => [(key, ⟨key, content, spans⟩)]
  | (k, e) :: rest, key, content, spans =>
    if k = key then (k, { e with matchList := e.matchList ++ spans }) :: rest
    else (k, e) :: addMatches rest key content spans

/-- The body of `for item in law["content"]` (lines 141-170): lower the
unit text, test `keyword_lower in text_lower`, and on a hit scan for all
occurrences and merge them into the dictionary under the derived label.
Fuel `length + 2` is enough for every terminating scan (shown below);
`none` models a scan that never terminates. -/
def processUnit (kwLower : List Char) (d : Dict) (content : List Char) :
    Option Dict :=
  let textLower := pyLower content
  if inStr kwLower textLower then
    match scanLoop textLower kwLower (textLower.length + 2) 0 with
    | none => none
    | some spans => some (addMatches d (extract_article_title content) content spans)
  else some d

/-- One content unit of a structured document: the
`{"type": ..., "content": ..., "page": ...}` record. -/
structure ContentItem where
  type : List Char
  content : List Char
  page : Nat
deriving DecidableEq

/-- The whole per-document matching loop over `law["content"]`. -/
def processContent (kwLower : List Char) (items : List ContentItem) :
    Option Dict :=
  items.foldlM (fun d it => processUnit kwLower d it.content) []

/-- The opening highlight tag inserted by `highlight_all_keywords`. -/
def openTag : List Char := chars "<span class=\"highlight\">"

/-- The closing highlight tag inserted by `highlight_all_keywords`. -/
def closeTag : List Char := chars "</span>"

/-- One pass of the highlighting loop:
`text[:start] + open + text[start:end] + close + text[end:]`. -/
def insertSpan (text : List Char) (m : Span) : List Char :=
  text.take m.start ++ openTag ++ (text.drop m.start).take (m.stop - m.start)
    ++ closeTag ++ text.drop m.stop

/-- `FindLawProcessor.highlight_all_keywords`: sort the spans by `start`
descending, then insert the tags back to front.  The source's `matches`
parameter is called `matchList` (a Lean keyword clash); the `keyword`
parameter is unused, as in the source. -/
def highlight_all_keywords (text : List Char) (matchList : List Span)
    (keyword : List Char) : List Char :=
  (pySortDesc Span.start matchList).foldl insertSpan text

/-- One element of `matched_pages` (lines 182-187). -/
structure MatchedPage where
  title : List Char
  snippet : List Char
  matched_term : List Char
  match_count : Nat
deriving DecidableEq

/-- Lines 173-187: one `matched_pages` element per dictionary entry, in
dictionary (= first-insertion) order. -/
def matchedPagesOf (keyword : List Char) (d : Dict) : List MatchedPage :=
  d.map fun p =>
    ⟨p.1, highlight_all_keywords p.2.content p.2.matchList keyword, keyword,
      p.2.matchList.length⟩

/-- The `year` value of a document record: a string when parsed from the
filename, an integer (the current year) otherwise — the JSON index stores
`string|int` here. -/
inductive YearVal
  | str : List Char → YearVal
  | num : Nat → YearVal
deriving DecidableEq

/-- One record of the index's `laws` list.  `total_pages` is `Option`
because `search` reads it with `law.get("total_pages", 1)`, so a record
may lack it; the remaining fields are read with mandatory indexing. -/
structure Law where
  title : List Char
  year : YearVal
  filename : List Char
  content : List ContentItem
  total_pages : Option Nat
  last_modified : List Char
deriving DecidableEq

/-- One search result row. -/
structure SearchResult where
  title : List Char
  year : YearVal
  filename : List Char
  total_pages : Nat
  matched_pages : List MatchedPage
  total_matches : Nat
deriving DecidableEq

/-- Lines 189-197: the result record appended for a law with at least one
matched page; `total_pages` defaults to `1` when the record lacks it. -/
def mkSearchResult (law : Law) (mp : List MatchedPage) : SearchResult :=
  ⟨law.title, law.year, law.filename, law.total_pages.getD 1, mp,
    (mp.map MatchedPage.match_count).sum⟩

/-- The per-law body of `search` (lines 133-197): skip the law when the
type filter excludes it (`some none`), otherwise match all units;
`some none` also when no unit matched, `some (some r)` when the law
contributes a result, `none` when a unit's scan diverges. -/
def lawResult (keyword kwLower law_type : List Char) (law : Law) :
    Option (Option SearchResult) :=
  if law_type ≠ chars "all" ∧ pyLower law.title ≠ pyLower law_type then
    some none
  else
    match processContent kwLower law.content with
    | none => none
    | some d =>
      let mp := matchedPagesOf keyword d
      if mp = [] then some none else some (some (mkSearchResult law mp))

/-- The results list in law order, before the final sort: each law of the
index contributes at most one result, in index order. -/
def searchUnsorted (keyword law_type : List Char) (laws : List Law) :
    Option (List SearchResult) :=
  (laws.mapM (lawResult keyword (pyLower keyword) law_type)).map
    (List.filterMap id)

/-- `FindLawProcessor.search` over the decoded `laws` list:
`sorted(results, key=lambda x: x["total_matches"], reverse=True)`.
`none` models the non-terminating runs of the source loop. -/
def search (keyword law_type : List Char) (laws : List Law) :
    Option (List SearchResult) :=
  (searchUnsorted keyword law_type laws).map
    (pySortDesc SearchResult.total_matches)

/-- The `"chapter"` type tag. -/
def chapterType : List Char := chars "chapter"

/-- The `"article"` type tag. -/
def articleType : List Char := chars "article"

/-- Parser state of `extract_pdf_content`: the `articles` list (kept
newest-first here, reversed at the end) and whether `current_article` is
set.  In the source `current_article` aliases the most recently appended
article dictionary and continuation lines mutate it in place; whenever it
is set it is the head of the (reversed) list, so a boolean suffices. -/
structure ExtractState where
  articles : List ContentItem
  hasCurrent : Bool
deriving DecidableEq

/-- The `for line in lines` body (lines 33-53): strip the line; a line
containing `第` and `章` emits a Chapter unit and clears
`current_article`; else one containing `第` and `条` starts a new Article
unit (text `line + " "`) and makes it current; else a non-empty line with
a current article appends `line + " "` to that article's text. -/
def processLine (page_num : Nat) (st : ExtractState) (rawLine : List Char) :
    ExtractState :=
  let line := pyStrip rawLine
  if inStr (chars "第") line ∧ inStr (chars "章") line then
    ⟨⟨chapterType, line, page_num + 1⟩ :: st.articles, false⟩
  else if inStr (chars "第") line ∧ inStr (chars "条") line then
    ⟨⟨articleType, line ++ [' '], page_num + 1⟩ :: st.articles, true⟩
  else if st.hasCurrent ∧ line ≠ [] then
    match st.articles with
    | [] => st
    | a :: rest => ⟨{ a with content := a.content ++ line ++ [' '] } :: rest,
        st.hasCurrent⟩
  else st

/-- The per-page body (lines 28-53): pages whose text strips to nothing
are skipped; otherwise the text is split on line breaks and each line is
processed.  The pair is `(page_num, page text)` with `page_num` 0-based,
as `enumerate(doc)` yields it. -/
def processPage (st : ExtractState) (pg : Nat × List Char) : ExtractState :=
  if pyStrip pg.2 ≠ [] then (splitOnChar '\n' pg.2).foldl (processLine pg.1) st
  else st

/-- The structuring core of `extract_pdf_content`: all content units of a
document, in reading order, from its per-page texts. -/
def extractUnits (pages : List (List Char)) : List ContentItem :=
  (pages.enum.foldl processPage ⟨[], false⟩).articles.reverse

/-- `os.path.splitext(name)[0]` for ordinary file names: drop a final
`.ext` segment when there is one (the stem of a dot-less name is the name
itself). -/
def splitext (name : List Char) : List Char :=
  let extLen := (name.reverse.takeWhile (fun c => c ≠ '.')).length
  if extLen = name.length then name else name.take (name.length - extLen - 1)

/-- `FindLawProcessor.extract_pdf_content`.  The extraction layer
(`fitz.open` and page reading) is the `source` argument: `Except.error`
models any raised extraction error, which the `try/except` of lines 23-76
turns into `None`; `Except.ok pages` is the list of per-page texts.
`nowYear` stands for `datetime.now().year` and `mtime` for the formatted
`os.path.getmtime` result. -/
def extract_pdf_content (source : Except Unit (List (List Char)))
    (filename : List Char) (nowYear : Nat) (mtime : List Char) : Option Law :=
  match source with
  | .error _ => none
  | .ok pages =>
    let articles := extractUnits pages
    if articles = [] then none
    else
      let parts := splitOnChar '_' (splitext filename)
      some
        { title := parts.head?.getD (chars "未知法律")
          year :=
            match parts.get? 1 with
            | some y => .str y
            | none => .num nowYear
          filename := filename
          content := articles
          total_pages := some pages.length
          last_modified := mtime }

/-- One directory entry seen by `build_index`: its name and what the
extraction layer yields for it. -/
structure FileEntry where
  filename : List Char
  source : Except Unit (List (List Char))
  mtime : List Char

/-- Line 91: `filename.lower().endswith(".pdf") or
filename.lower().endswith(".docx")`. -/
def hasLawExt (filename : List Char) : Bool :=
  (chars ".pdf").isSuffixOf (pyLower filename)
    || (chars ".docx").isSuffixOf (pyLower filename)

/-- One iteration of the directory loop of `build_index` (lines 90-97):
a file with an accepted extension is structured; a successful record is
appended to the laws, a failure's filename to the invalid list; other
files are skipped. -/
def buildStep (nowYear : Nat) (acc : List Law × List (List Char))
    (f : FileEntry) : List Law × List (List Char) :=
  if hasLawExt f.filename then
    match extract_pdf_content f.source f.filename nowYear f.mtime with
    | some law => (acc.1 ++ [law], acc.2)
    | none => (acc.1, acc.2 ++ [f.filename])
  else acc

/-- The directory loop of `FindLawProcessor.build_index`:
`(index_data, invalid_files)`. -/
def build_index (nowYear : Nat) (files : List FileEntry) :
    List Law × List (List Char) :=
  files.foldl (buildStep nowYear) ([], [])

/-! ## Basic lemmas about the string model -/

theorem isPrefixOf_take {kw l : List Char} (h : kw.isPrefixOf l = true) :
    kw.length ≤ l.length ∧ l.take kw.length = kw := by
  induction kw generalizing l with
  | nil => simp
  | cons a as ih =>
    cases l with
    | nil => simp [List.isPrefixOf] at h
    | cons b bs =>
      simp only [List.isPrefixOf, Bool.and_eq_true, beq_iff_eq] at h
      obtain ⟨rfl, h2⟩ := h
      obtain ⟨h3, h4⟩ := ih h2
      exact ⟨by simpa using h3, by simp [h4]⟩

theorem findFromGo_some {text kw : List Char} {i n j : Nat}
    (h : findFromGo text kw i n = some j) :
    i ≤ j ∧ j < i + n ∧ kw.isPrefixOf (text.drop j) = true := by
  induction n generalizing i with
  | zero => simp [findFromGo] at h
  | succ n ih =>
    by_cases hp : kw.isPrefixOf (text.drop i) = true
    · simp only [findFromGo, hp, if_pos] at h
      cases h
      exact ⟨le_refl _, by omega, hp⟩
    · simp only [findFromGo, hp, if_neg, Bool.not_eq_true] at h
      obtain ⟨h1, h2, h3⟩ := ih h
      exact ⟨le_trans (Nat.le_succ i) h1, by omega, h3⟩

theorem findFrom_some {text kw : List Char} {start j : Nat}
    (h : findFrom text kw start = some j) :
    start ≤ j ∧ kw.isPrefixOf (text.drop j) = true :=
  ⟨(findFromGo_some h).1, (findFromGo_some h).2.2⟩

/-- A found occurrence lies inside the text:
`j + len(kw) ≤ len(text)`. -/
theorem findFrom_some_bound {text kw : List Char} {start j : Nat}
    (h : findFrom text kw start = some j) :
    j + kw.length ≤ text.length := by
  obtain ⟨h1, h2, h3⟩ := findFromGo_some h
  have h4 := (isPrefixOf_take h3).1
  simp only [List.length_drop] at h4
  omega

theorem pyLowerChar_ne_nil (c : Char) : pyLowerChar c ≠ [] := by
  unfold pyLowerChar
  split <;> simp

theorem pyLower_ne_nil {s : List Char} (h : s ≠ []) : pyLower s ≠ [] := by
  cases s with
  | nil => exact absurd rfl h
  | cons c cs =>
    simp only [pyLower, List.flatMap_cons]
    intro hc
    exact pyLowerChar_ne_nil c (List.append_eq_nil.mp hc).1

/-! ## The keyword scan: soundness and termination -/

/-- What every span returned by the scan loop satisfies: it starts at or
after the scan's start position, is exactly one occurrence of the keyword,
has length `len(keyword)`, and the spans are pairwise non-overlapping in
increasing order. -/
theorem scanLoop_sound {text kw : List Char} :
    ∀ {fuel start : Nat} {spans : List Span},
      scanLoop text kw fuel start = some spans →
      (∀ s ∈ spans, s.stop = s.start + kw.length ∧ start ≤ s.start ∧
        kw.isPrefixOf (text.drop s.start) = true) ∧
      List.Pairwise (fun a b => a.stop ≤ b.start) spans := by
  intro fuel
  induction fuel with
  | zero => intro start spans h; simp [scanLoop] at h
  | succ n ih =>
    intro start spans h
    rw [scanLoop] at h
    cases hf : findFrom text kw start with
    | none =>
      rw [hf] at h
      dsimp only at h
      cases h
      exact ⟨by simp, by simp⟩
    | some idx =>
      rw [hf] at h
      dsimp only at h
      cases hr : scanLoop text kw n (idx + kw.length) with
      | none => rw [hr] at h; cases h
      | some rest =>
        rw [hr] at h
        dsimp only at h
        cases h
        obtain ⟨hmem, hpair⟩ := ih hr
        obtain ⟨hle, hpre⟩ := findFrom_some hf
        refine ⟨?_, ?_⟩
        · intro s hs
          rcases List.mem_cons.mp hs with rfl | hs
          · exact ⟨rfl, hle, hpre⟩
          · obtain ⟨h1, h2, h3⟩ := hmem s hs
            exact ⟨h1, le_trans (le_trans hle (Nat.le_add_right _ _)) h2, h3⟩
        · refine List.pairwise_cons.mpr ⟨?_, hpair⟩
          intro s hs
          exact (hmem s hs).2.1

/-- For a non-empty keyword the scan loop terminates: fuel
`len(text) + 2 - start` iterations suffice (the loop advances by at least
one position per recorded match). -/
theorem scanLoop_term {text kw : List Char} (hkw : kw ≠ []) :
    ∀ {fuel start : Nat}, start ≤ text.length + 1 →
      text.length + 2 - start ≤ fuel →
      ∃ spans, scanLoop text kw fuel start = some spans := by
  intro fuel
  induction fuel with
  | zero => intro start h1 h2; omega
  | succ n ih =>
    intro start h1 h2
    rw [scanLoop]
    cases hf : findFrom text kw start with
    | none => exact ⟨[], rfl⟩
    | some idx =>
      have hb := findFrom_some_bound hf
      have hge := (findFrom_some hf).1
      have hkwlen : 1 ≤ kw.length := by
        cases kw with
        | nil => exact absurd rfl hkw
        | cons a as => simp
      obtain ⟨rest, hrest⟩ := @ih (idx + kw.length) (by omega) (by omega)
      exact ⟨_, by dsimp only; rw [hrest]⟩

/-- The scan loop of `search` with an empty keyword never terminates:
`find` returns the current start position at once, and the restart
position `idx + len(keyword)` does not move. -/
theorem scanLoop_nil_keyword (text : List Char) :
    ∀ fuel, scanLoop text [] fuel 0 = none := by
  intro fuel
  induction fuel with
  | zero => rfl
  | succ n ih =>
    rw [scanLoop]
    have hf : findFrom text [] 0 = some 0 := by
      unfold findFrom findFromGo
      simp [List.isPrefixOf]
    rw [hf]
    dsimp only [List.length_nil, Nat.add_zero]
    rw [ih]

/-! ## Lowercasing lemmas -/

theorem pyLower_cons (c : Char) (cs : List Char) :
    pyLower (c :: cs) = pyLowerChar c ++ pyLower cs := rfl

theorem pyLower_length {t : List Char}
    (h : ∀ c ∈ t, (pyLowerChar c).length = 1) :
    (pyLower t).length = t.length := by
  induction t with
  | nil => rfl
  | cons c cs ih =>
    rw [pyLower_cons, List.length_append, List.length_cons,
      h c (List.mem_cons_self c cs), ih (fun d hd => h d (List.mem_cons_of_mem c hd))]
    omega

/-- Under length-preserving lowering, `lower` commutes with `take`. -/
theorem pyLower_take {t : List Char}
    (h : ∀ c ∈ t, (pyLowerChar c).length = 1) (n : Nat) :
    pyLower (t.take n) = (pyLower t).take n := by
  induction t generalizing n with
  | nil => simp [pyLower]
  | cons c cs ih =>
    cases n with
    | zero => simp [pyLower]
    | succ m =>
      have hc := h c (List.mem_cons_self c cs)
      cases hpc : pyLowerChar c with
      | nil => rw [hpc] at hc; simp at hc
      | cons d ds =>
        rw [hpc] at hc
        simp only [List.length_cons] at hc
        have hds : ds = [] := List.length_eq_zero.mp (by omega)
        subst hds
        rw [List.take_succ_cons, pyLower_cons, pyLower_cons, hpc,
          ih (fun e he => h e (List.mem_cons_of_mem c he)) m]
        rfl

/-- Under length-preserving lowering, `lower` commutes with `drop`. -/
theorem pyLower_drop {t : List Char}
    (h : ∀ c ∈ t, (pyLowerChar c).length = 1) (n : Nat) :
    pyLower (t.drop n) = (pyLower t).drop n := by
  induction t generalizing n with
  | nil => simp [pyLower]
  | cons c cs ih =>
    cases n with
    | zero => rfl
    | succ m =>
      have hc := h c (List.mem_cons_self c cs)
      cases hpc : pyLowerChar c with
      | nil => rw [hpc] at hc; simp at hc
      | cons d ds =>
        rw [hpc] at hc
        simp only [List.length_cons] at hc
        have hds : ds = [] := List.length_eq_zero.mp (by omega)
        subst hds
        rw [List.drop_succ_cons, pyLower_cons, hpc,
          ih (fun e he => h e (List.mem_cons_of_mem c he)) m]
        rfl

/-! ## Sample data for concrete runs -/

/-- A one-document index with a single article unit, used for concrete
runs of `search`. -/
def sampleLaw : Law :=
  ⟨chars "刑法", .str (chars "1997"), chars "刑法_1997.docx",
    [⟨articleType, chars "第一条 盗窃 ", 1⟩], some 3, chars "2024-01-01"⟩

/-! ## Claims -/

/-- C4: for every non-empty keyword, the scan records occurrences by
repeated forward search restarting at the previous match's end, so every
recorded span has length `len(keyword)`, is non-degenerate, and no two
recorded spans for the same unit overlap (each later span starts at or
after every earlier span's end). -/
theorem C4_scan_nonoverlap (text kw : List Char) (fuel start : Nat)
    (spans : List Span) (hkw : kw ≠ [])
    (hscan : scanLoop text kw fuel start = some spans) :
    (∀ s ∈ spans, s.start < s.stop) ∧
    (∀ s ∈ spans, s.stop = s.start + kw.length) ∧
    List.Pairwise (fun a b => a.stop ≤ b.start) spans := by
  obtain ⟨hmem, hpair⟩ := scanLoop_sound hscan
  have hlen : 1 ≤ kw.length := by
    cases kw with
    | nil => exact absurd rfl hkw
    | cons a as => simp
  refine ⟨?_, fun s hs => (hmem s hs).1, hpair⟩
  intro s hs
  have := (hmem s hs).1
  omega

/-- Witness for C4 at the scan of `"abcabc"` for `"abc"`. -/
theorem C4_scan_nonoverlap_witness :
    (∀ s ∈ [Span.mk 0 3, Span.mk 3 6], s.start < s.stop) ∧
    (∀ s ∈ [Span.mk 0 3, Span.mk 3 6],
      s.stop = s.start + (chars "abc").length) ∧
    List.Pairwise (fun a b => a.stop ≤ b.start) [Span.mk 0 3, Span.mk 3 6] :=
  C4_scan_nonoverlap (chars "abcabc") (chars "abc") 10 0
    [Span.mk 0 3, Span.mk 3 6] (by decide) (by decide)

/-- C1 (code bug): the spec promises that an empty or whitespace-only
keyword yields zero results, but the code does neither.  With keyword `""`
the scan loop never terminates for any unit that reaches it — `"" in s`
is `True` for every `s` and `find("", start)` returns `start`, so
`start += len(keyword)` never advances — hence `search("")` on any index
with one reachable unit diverges (`none` for every fuel).  With keyword
`" "` the code happily matches literal spaces and returns a non-empty
result list. -/
theorem C1_empty_keyword_code_bug :
    (∀ text fuel, scanLoop text [] fuel 0 = none) ∧
    search [] (chars "all") [sampleLaw] = none ∧
    search (chars " ") (chars "all") [sampleLaw] ≠ none ∧
    search (chars " ") (chars "all") [sampleLaw] ≠ some [] :=
  ⟨scanLoop_nil_keyword, by decide, by decide, by decide⟩

/-- C5 (amended): the spans the scan records are offsets into the
*lowercased* unit text, where each addresses exactly one occurrence of the
lowercased keyword.  Whenever lowercasing is length-preserving on the unit
text (one code point per code point — true of all ASCII and CJK text),
the same offsets are also valid offsets into the original text and the
original substring there is the keyword up to case.  (The unconditional
claim over the original text is refuted by `C5_counterexample`.) -/
theorem C5_spans_lowered (text kw : List Char) (fuel : Nat)
    (spans : List Span) (hkw : kw ≠ [])
    (hscan : scanLoop (pyLower text) (pyLower kw) fuel 0 = some spans) :
    ∀ s ∈ spans,
      s.stop ≤ (pyLower text).length ∧
      ((pyLower text).drop s.start).take (s.stop - s.start) = pyLower kw ∧
      ((∀ c ∈ text, (pyLowerChar c).length = 1) →
        s.stop ≤ text.length ∧
        pyLower ((text.drop s.start).take (s.stop - s.start)) = pyLower kw) := by
  intro s hs
  obtain ⟨hmem, _⟩ := scanLoop_sound hscan
  obtain ⟨hlen, _, hpre⟩ := hmem s hs
  have hkl : 1 ≤ (pyLower kw).length :=
    List.length_pos.mpr (pyLower_ne_nil hkw)
  obtain ⟨hle, htake⟩ := isPrefixOf_take hpre
  simp only [List.length_drop] at hle
  have hstop : s.stop ≤ (pyLower text).length := by omega
  have hdiff : s.stop - s.start = (pyLower kw).length := by omega
  refine ⟨hstop, by rw [hdiff, htake], ?_⟩
  intro h
  have hL := pyLower_length h
  refine ⟨by omega, ?_⟩
  have hsub : ∀ c ∈ text.drop s.start, (pyLowerChar c).length = 1 :=
    fun c hc => h c (List.drop_subset s.start text hc)
  rw [pyLower_take hsub, pyLower_drop h, hdiff, htake]

/-- Witness for C5 at text `"ABC"`, keyword `"b"`, span `[1, 2)`. -/
theorem C5_spans_lowered_witness :
    (Span.mk 1 2).stop ≤ (pyLower (chars "ABC")).length ∧
    ((pyLower (chars "ABC")).drop (Span.mk 1 2).start).take
        ((Span.mk 1 2).stop - (Span.mk 1 2).start) = pyLower (chars "b") ∧
    ((∀ c ∈ chars "ABC", (pyLowerChar c).length = 1) →
      (Span.mk 1 2).stop ≤ (chars "ABC").length ∧
      pyLower (((chars "ABC").drop (Span.mk 1 2).start).take
        ((Span.mk 1 2).stop - (Span.mk 1 2).start)) = pyLower (chars "b")) :=
  C5_spans_lowered (chars "ABC") (chars "b") 5 [Span.mk 1 2]
    (by decide) (by decide) (Span.mk 1 2) (by decide)

/-- C5 counterexample: with unit text `"İabc"` (whose Python lowercase
`"i̇abc"` is one code point longer) and keyword `"abc"`, the recorded span
is `[2, 5)`; `5` is out of range for the original 4-character text, the
original substring at the span is `"bc"`, not the keyword up to case, and
the highlighting of the original text wraps `"bc"`. -/
theorem C5_counterexample :
    pyLower (chars "İabc") = 'i' :: '̇' :: chars "abc" ∧
    scanLoop (pyLower (chars "İabc")) (pyLower (chars "abc"))
      ((pyLower (chars "İabc")).length + 2) 0 = some [Span.mk 2 5] ∧
    ¬ 5 ≤ (chars "İabc").length ∧
    pyLower (((chars "İabc").drop 2).take 3) ≠ pyLower (chars "abc") ∧
    highlight_all_keywords (chars "İabc") [Span.mk 2 5] (chars "abc") =
      chars "İa<span class=\"highlight\">bc</span>" := by
  decide

/-- A document with two article units deriving the same label `第一条`,
each containing the keyword `盗` once (at different offsets). -/
def lawC2 : Law :=
  ⟨chars "刑法", .str (chars "1997"), chars "刑法_1997.docx",
    [⟨articleType, chars "第一条 盗甲", 1⟩,
     ⟨articleType, chars "第一条 乙乙盗", 1⟩], some 3, chars "2024-01-01"⟩

/-- C2 (amended): when two distinct matching units derive the same label,
their matches are merged into that label's single result entry, but the
entry's content — and hence its snippet — is built from the text of the
*first* unit that created the entry (the `if article_title not in
matched_articles` guard initialises `content` once and never overwrites
it); the later unit contributes only its match spans, which are computed
against its own text and then applied to the first unit's text. -/
theorem C2_label_grouping (kw : List Char) (u1 u2 : ContentItem) (law : Law)
    (hc : law.content = [u1, u2])
    (hl : extract_article_title u2.content = extract_article_title u1.content)
    (h1 : inStr (pyLower kw) (pyLower u1.content) = true)
    (h2 : inStr (pyLower kw) (pyLower u2.content) = true)
    (m1 m2 : List Span)
    (hs1 : scanLoop (pyLower u1.content) (pyLower kw)
      ((pyLower u1.content).length + 2) 0 = some m1)
    (hs2 : scanLoop (pyLower u2.content) (pyLower kw)
      ((pyLower u2.content).length + 2) 0 = some m2) :
    search kw (chars "all") [law] =
      some [mkSearchResult law
        [⟨extract_article_title u1.content,
          highlight_all_keywords u1.content (m1 ++ m2) kw, kw,
          (m1 ++ m2).length⟩]] := by
  simp [search, searchUnsorted, lawResult, processContent, processUnit, hc,
    hl, h1, h2, hs1, hs2, addMatches, matchedPagesOf, pySortDesc, insertDesc,
    List.mapM, List.mapM.loop]

/-- C2 counterexample: on `lawC2` the single result entry's snippet is the
*first* unit's text `第一条 盗甲` with both merged spans applied to it —
not, as claimed, a snippet built from the last unit's text
`第一条 乙乙盗`. -/
theorem C2_counterexample :
    (search (chars "盗") (chars "all") [lawC2]).map
        (List.map fun r => r.matched_pages.map MatchedPage.snippet) =
      some [[chars
        "第一条 <span class=\"highlight\">盗</span>甲<span class=\"highlight\"></span>"]] ∧
    chars "第一条 <span class=\"highlight\">盗</span>甲<span class=\"highlight\"></span>" ≠
      highlight_all_keywords (chars "第一条 乙乙盗")
        [Span.mk 4 5, Span.mk 6 7] (chars "盗") := by
  decide

/-- Witness for C2 at `lawC2`. -/
theorem C2_label_grouping_witness :
    search (chars "盗") (chars "all") [lawC2] =
      some [mkSearchResult lawC2
        [⟨extract_article_title (chars "第一条 盗甲"),
          highlight_all_keywords (chars "第一条 盗甲")
            ([Span.mk 4 5] ++ [Span.mk 6 7]) (chars "盗"),
          chars "盗", ([Span.mk 4 5] ++ [Span.mk 6 7]).length⟩]] :=
  C2_label_grouping (chars "盗") ⟨articleType, chars "第一条 盗甲", 1⟩
    ⟨articleType, chars "第一条 乙乙盗", 1⟩ lawC2 rfl (by decide) (by decide)
    (by decide) [Span.mk 4 5] [Span.mk 6 7] (by decide) (by decide)

/-! ## Sorting lemmas -/

theorem mem_insertDesc {key : α → Nat} {x z : α} {l : List α} :
    z ∈ insertDesc key x l ↔ z = x ∨ z ∈ l := by
  induction l with
  | nil => simp [insertDesc]
  | cons y ys ih =>
    by_cases hxy : key x < key y
    · simp only [insertDesc, if_pos hxy, List.mem_cons, ih]
      tauto
    · simp only [insertDesc, if_neg hxy, List.mem_cons]

theorem pairwise_insertDesc {key : α → Nat} {x : α} {l : List α}
    (h : List.Pairwise (fun a b => key b ≤ key a) l) :
    List.Pairwise (fun a b => key b ≤ key a) (insertDesc key x l) := by
  induction l with
  | nil => simp [insertDesc]
  | cons y ys ih =>
    obtain ⟨hy, hys⟩ := List.pairwise_cons.mp h
    by_cases hxy : key x < key y
    · rw [insertDesc, if_pos hxy]
      refine List.pairwise_cons.mpr ⟨?_, ih hys⟩
      intro z hz
      rcases mem_insertDesc.mp hz with rfl | hz
      · omega
      · exact hy z hz
    · rw [insertDesc, if_neg hxy]
      refine List.pairwise_cons.mpr ⟨?_, h⟩
      intro z hz
      rcases List.mem_cons.mp hz with rfl | hz
      · omega
      · have := hy z hz
        omega

/-- The model of Python's `sorted(..., reverse=True)` sorts into
non-increasing key order. -/
theorem pySortDesc_pairwise (key : α → Nat) (l : List α) :
    List.Pairwise (fun a b => key b ≤ key a) (pySortDesc key l) := by
  induction l with
  | nil => simp [pySortDesc]
  | cons x xs ih => exact pairwise_insertDesc ih

theorem filter_insertDesc (key : α → Nat) (x : α) (l : List α) (n : Nat) :
    (insertDesc key x l).filter (fun y => key y == n) =
      if key x = n then x :: l.filter (fun y => key y == n)
      else l.filter (fun y => key y == n) := by
  induction l with
  | nil =>
    by_cases h : key x = n <;> simp [insertDesc, h]
  | cons y ys ih =>
    by_cases hxy : key x < key y
    · rw [insertDesc, if_pos hxy]
      by_cases hx : key x = n
      · have hy : ¬ key y = n := by omega
        simp [List.filter_cons, hx, hy, ih]
      · simp only [List.filter_cons, ih, if_neg hx]
    · rw [insertDesc, if_neg hxy]
      by_cases hx : key x = n
      · simp [List.filter_cons, hx]
      · simp [List.filter_cons, hx]

/-- Stability of the descending sort: the elements of any one key value
keep their original relative order. -/
theorem filter_pySortDesc (key : α → Nat) (l : List α) (n : Nat) :
    (pySortDesc key l).filter (fun y => key y == n) =
      l.filter (fun y => key y == n) := by
  induction l with
  | nil => rfl
  | cons x xs ih =>
    rw [pySortDesc, filter_insertDesc]
    by_cases hx : key x = n
    · simp [List.filter_cons, hx, ih]
    · simp [List.filter_cons, hx, ih]

/-- C6: search output is sorted by `total_matches` in non-increasing
order, and results with equal totals keep the relative order in which
their documents were encountered in the index (`searchUnsorted` lists at
most one result per law, in index order; the final sort is stable). -/
theorem C6_ranking (keyword law_type : List Char) (laws : List Law)
    (us : List SearchResult)
    (hu : searchUnsorted keyword law_type laws = some us) :
    search keyword law_type laws =
      some (pySortDesc SearchResult.total_matches us) ∧
    List.Pairwise (fun a b => b.total_matches ≤ a.total_matches)
      (pySortDesc SearchResult.total_matches us) ∧
    ∀ n, (pySortDesc SearchResult.total_matches us).filter
        (fun r => r.total_matches == n) =
      us.filter (fun r => r.total_matches == n) :=
  ⟨by simp [search, hu], pySortDesc_pairwise _ _,
    fun n => filter_pySortDesc _ _ n⟩

/-- The unsorted result list of the witness run. -/
def usC6 : List SearchResult :=
  [mkSearchResult sampleLaw
    [⟨chars "第一条",
      highlight_all_keywords (chars "第一条 盗窃 ") [Span.mk 4 5] (chars "盗"),
      chars "盗", 1⟩]]

/-- Witness for C6 on the one-document index. -/
theorem C6_ranking_witness :
    search (chars "盗") (chars "all") [sampleLaw] =
      some (pySortDesc SearchResult.total_matches usC6) ∧
    List.Pairwise (fun a b => b.total_matches ≤ a.total_matches)
      (pySortDesc SearchResult.total_matches usC6) ∧
    ∀ n, (pySortDesc SearchResult.total_matches usC6).filter
        (fun r => r.total_matches == n) =
      usC6.filter (fun r => r.total_matches == n) :=
  C6_ranking (chars "盗") (chars "all") [sampleLaw] usC6 (by decide)

/-! ## Highlighting -/

/-- Modelled from the spec's words (§4.3): processing spans from the
highest start offset to the lowest, each span's substring *of the original
text* is wrapped in the highlight marker and the text outside the spans is
kept unchanged.  (`highlightSpec text spans` expects `spans` sorted by
descending start; the recursive call works on the untouched prefix.) -/
def highlightSpec (text : List Char) : List Span → List Char
  | [] => text
  | s :: rest =>
    highlightSpec (text.take s.start) rest ++ openTag ++
      (text.drop s.start).take (s.stop - s.start) ++ closeTag ++
      text.drop s.stop

theorem insertSpan_length {text : List Char} {s : Span}
    (h1 : s.start ≤ s.stop) (h2 : s.stop ≤ text.length) :
    (insertSpan text s).length =
      text.length + openTag.length + closeTag.length := by
  simp only [insertSpan, List.length_append, List.length_take,
    List.length_drop]
  omega

/-- Inserting tags for spans lying inside `P` does not touch an appended
suffix `Q`. -/
theorem foldl_insertSpan_append {Q : List Char} :
    ∀ (spans : List Span) (P : List Char),
      (∀ s ∈ spans, s.start ≤ s.stop ∧ s.stop ≤ P.length) →
      spans.foldl insertSpan (P ++ Q) = spans.foldl insertSpan P ++ Q := by
  intro spans
  induction spans with
  | nil => intro P _; rfl
  | cons s rest ih =>
    intro P h
    obtain ⟨hs1, hs2⟩ := h s (List.mem_cons_self s rest)
    have ht : (P ++ Q).take s.start = P.take s.start :=
      List.take_append_of_le_length (by omega)
    have hd1 : (P ++ Q).drop s.start = P.drop s.start ++ Q :=
      List.drop_append_of_le_length (by omega)
    have hd2 : (P ++ Q).drop s.stop = P.drop s.stop ++ Q :=
      List.drop_append_of_le_length hs2
    have hmid : (P.drop s.start ++ Q).take (s.stop - s.start) =
        (P.drop s.start).take (s.stop - s.start) :=
      List.take_append_of_le_length (by simp only [List.length_drop]; omega)
    have hstep : insertSpan (P ++ Q) s = insertSpan P s ++ Q := by
      simp only [insertSpan, ht, hd1, hd2, hmid, List.append_assoc]
    rw [List.foldl_cons, List.foldl_cons, hstep]
    refine ih (insertSpan P s) ?_
    intro r hr
    refine ⟨(h r (List.mem_cons_of_mem s hr)).1, ?_⟩
    rw [insertSpan_length hs1 hs2]
    have := (h r (List.mem_cons_of_mem s hr)).2
    omega

/-- The highlighting fold equals the spec-side description when the spans
are in-bounds and sorted by descending start with no overlaps. -/
theorem foldl_insertSpan_eq_spec :
    ∀ (spans : List Span) (text : List Char),
      (∀ s ∈ spans, s.start ≤ s.stop ∧ s.stop ≤ text.length) →
      List.Pairwise (fun a b => b.stop ≤ a.start) spans →
      spans.foldl insertSpan text = highlightSpec text spans := by
  intro spans
  induction spans with
  | nil => intro text _ _; rfl
  | cons s rest ih =>
    intro text hb hp
    obtain ⟨hs1, hs2⟩ := hb s (List.mem_cons_self s rest)
    obtain ⟨hhead, hrest⟩ := List.pairwise_cons.mp hp
    have hA : (text.take s.start).length = s.start := by
      simp only [List.length_take]
      omega
    have hbr : ∀ r ∈ rest,
        r.start ≤ r.stop ∧ r.stop ≤ (text.take s.start).length := by
      intro r hr
      exact ⟨(hb r (List.mem_cons_of_mem s hr)).1, by
        rw [hA]; exact hhead r hr⟩
    have hins : insertSpan text s = text.take s.start ++
        (openTag ++ (text.drop s.start).take (s.stop - s.start) ++ closeTag ++
          text.drop s.stop) := by
      simp only [insertSpan, List.append_assoc]
    rw [List.foldl_cons, hins, foldl_insertSpan_append rest _ hbr,
      ih (text.take s.start) hbr hrest]
    simp only [highlightSpec, List.append_assoc]

/-- In the spec-side description every span's original substring appears
wrapped verbatim between one opening and one closing tag. -/
theorem highlightSpec_block :
    ∀ (spans : List Span) (text : List Char),
      (∀ s ∈ spans, s.start ≤ s.stop ∧ s.stop ≤ text.length) →
      List.Pairwise (fun a b => b.stop ≤ a.start) spans →
      ∀ s ∈ spans, ∃ pre post,
        highlightSpec text spans =
          pre ++ (openTag ++ (text.drop s.start).take (s.stop - s.start) ++
            closeTag) ++ post := by
  intro spans
  induction spans with
  | nil =>
    intro text _ _ s hs
    cases hs
  | cons a rest ih =>
    intro text hb hp s hs
    obtain ⟨hhead, hrest⟩ := List.pairwise_cons.mp hp
    obtain ⟨ha1, ha2⟩ := hb a (List.mem_cons_self a rest)
    rcases List.mem_cons.mp hs with rfl | hs
    · refine ⟨highlightSpec (text.take s.start) rest, text.drop s.stop, ?_⟩
      simp only [highlightSpec, List.append_assoc]
    · have hbr : ∀ r ∈ rest,
          r.start ≤ r.stop ∧ r.stop ≤ (text.take a.start).length := by
        intro r hr
        refine ⟨(hb r (List.mem_cons_of_mem a hr)).1, ?_⟩
        simp only [List.length_take]
        have := hhead r hr
        omega
      obtain ⟨pre, post, hpp⟩ := ih (text.take a.start) hbr hrest s hs
      have hstop : s.stop ≤ a.start := hhead s hs
      have hslice : ((text.take a.start).drop s.start).take (s.stop - s.start) =
          (text.drop s.start).take (s.stop - s.start) := by
        rw [List.drop_take, List.take_take]
        congr 1
        omega
      rw [hslice] at hpp
      refine ⟨pre, post ++ openTag ++
        (text.drop a.start).take (a.stop - a.start) ++ closeTag ++
        text.drop a.stop, ?_⟩
      simp only [highlightSpec, hpp, List.append_assoc]

/-! ## Permutation lemmas for the sort -/

theorem perm_insertDesc (key : α → Nat) (x : α) (l : List α) :
    List.Perm (insertDesc key x l) (x :: l) := by
  induction l with
  | nil => exact List.Perm.refl _
  | cons y ys ih =>
    by_cases h : key x < key y
    · rw [insertDesc, if_pos h]
      exact (ih.cons y).trans (List.Perm.swap x y ys)
    · rw [insertDesc, if_neg h]

theorem perm_pySortDesc (key : α → Nat) (l : List α) :
    List.Perm (pySortDesc key l) l := by
  induction l with
  | nil => exact List.Perm.refl _
  | cons x xs ih =>
    exact (perm_insertDesc key x (pySortDesc key xs)).trans (ih.cons x)

/-- C3: highlighting applies the spans from the highest start offset to
the lowest and, for non-degenerate pairwise non-overlapping in-bounds
spans, produces exactly the spec-side output: each span's substring of the
original text wrapped verbatim in the highlight marker, the rest of the
text unchanged; in particular `"abcabc"` with keyword spans `[0,3)` and
`[3,6)` yields both occurrences individually wrapped. -/
theorem C3_highlighting (text keyword : List Char) (spans : List Span)
    (hb : ∀ s ∈ spans, s.start < s.stop ∧ s.stop ≤ text.length)
    (hd : List.Pairwise (fun a b => a.stop ≤ b.start ∨ b.stop ≤ a.start)
      spans) :
    highlight_all_keywords text spans keyword =
      highlightSpec text (pySortDesc Span.start spans) ∧
    (∀ s ∈ spans, ∃ pre post,
      highlight_all_keywords text spans keyword =
        pre ++ (openTag ++ (text.drop s.start).take (s.stop - s.start) ++
          closeTag) ++ post) ∧
    highlight_all_keywords (chars "abcabc") [Span.mk 0 3, Span.mk 3 6]
        (chars "abc") =
      chars "<span class=\"highlight\">abc</span><span class=\"highlight\">abc</span>" := by
  have hperm := perm_pySortDesc Span.start spans
  have hmem : ∀ s, s ∈ pySortDesc Span.start spans ↔ s ∈ spans :=
    fun s => hperm.mem_iff
  have hb' : ∀ s ∈ pySortDesc Span.start spans,
      s.start ≤ s.stop ∧ s.stop ≤ text.length := by
    intro s hs
    obtain ⟨h1, h2⟩ := hb s ((hmem s).mp hs)
    exact ⟨Nat.le_of_lt h1, h2⟩
  have hd' : List.Pairwise (fun a b => a.stop ≤ b.start ∨ b.stop ≤ a.start)
      (pySortDesc Span.start spans) :=
    (hperm.pairwise_iff (fun {_ _} h => Or.symm h)).mpr hd
  have hsorted := pySortDesc_pairwise Span.start spans
  have hds : List.Pairwise (fun a b => b.stop ≤ a.start)
      (pySortDesc Span.start spans) := by
    refine (hsorted.and hd').imp_of_mem ?_
    intro a b ha hb2 hab
    obtain ⟨hle, hor⟩ := hab
    have h1 := hb a ((hmem a).mp ha)
    have h2 := hb b ((hmem b).mp hb2)
    omega
  have heq : highlight_all_keywords text spans keyword =
      highlightSpec text (pySortDesc Span.start spans) :=
    foldl_insertSpan_eq_spec (pySortDesc Span.start spans) text hb' hds
  refine ⟨heq, ?_, by decide⟩
  intro s hs
  obtain ⟨pre, post, hpp⟩ := highlightSpec_block (pySortDesc Span.start spans)
    text hb' hds s ((hmem s).mpr hs)
  exact ⟨pre, post, by rw [heq, hpp]⟩

/-- Witness for C3 at text `"abcabc"` and spans `[0,3)`, `[3,6)`. -/
theorem C3_highlighting_witness :
    highlight_all_keywords (chars "abcabc") [Span.mk 0 3, Span.mk 3 6]
        (chars "abc") =
      highlightSpec (chars "abcabc")
        (pySortDesc Span.start [Span.mk 0 3, Span.mk 3 6]) ∧
    (∀ s ∈ [Span.mk 0 3, Span.mk 3 6], ∃ pre post,
      highlight_all_keywords (chars "abcabc") [Span.mk 0 3, Span.mk 3 6]
          (chars "abc") =
        pre ++ (openTag ++ ((chars "abcabc").drop s.start).take
          (s.stop - s.start) ++ closeTag) ++ post) ∧
    highlight_all_keywords (chars "abcabc") [Span.mk 0 3, Span.mk 3 6]
        (chars "abc") =
      chars "<span class=\"highlight\">abc</span><span class=\"highlight\">abc</span>" :=
  C3_highlighting (chars "abcabc") (chars "abc") [Span.mk 0 3, Span.mk 3 6]
    (by decide) (by decide)

/-! ## Structuring lemmas -/

/-- A (stripped) line both branches of lines 35-50 test: it is a chapter
marker (`第` and `章`) or an article marker (`第` and `条`). -/
def isMarker (line : List Char) : Bool :=
  (inStr (chars "第") line && inStr (chars "章") line) ||
  (inStr (chars "第") line && inStr (chars "条") line)

/-- Some page has some line that is a chapter or article marker after
stripping. -/
def hasMarkerLine (pages : List (List Char)) : Bool :=
  pages.any fun pg => (splitOnChar '\n' pg).any fun l => isMarker (pyStrip l)

theorem splitOnChar_ne_nil (sep : Char) (s : List Char) :
    splitOnChar sep s ≠ [] := by
  induction s with
  | nil => simp [splitOnChar]
  | cons c cs ih =>
    by_cases h : c = sep
    · simp [splitOnChar, h]
    · rw [splitOnChar, if_neg h]
      cases hs : splitOnChar sep cs with
      | nil => simp
      | cons l ls => simp

theorem mem_of_mem_splitOnChar {sep c : Char} {s l : List Char}
    (hl : l ∈ splitOnChar sep s) (hc : c ∈ l) : c ∈ s := by
  induction s generalizing l with
  | nil =>
    simp only [splitOnChar, List.mem_singleton] at hl
    subst hl
    cases hc
  | cons d ds ih =>
    by_cases h : d = sep
    · rw [splitOnChar, if_pos h] at hl
      rcases List.mem_cons.mp hl with rfl | hl
      · cases hc
      · exact List.mem_cons_of_mem d (ih hl hc)
    · rw [splitOnChar, if_neg h] at hl
      cases hs : splitOnChar sep ds with
      | nil => exact absurd hs (splitOnChar_ne_nil sep ds)
      | cons l0 ls =>
        rw [hs] at hl
        rcases List.mem_cons.mp hl with rfl | hl
        · rcases List.mem_cons.mp hc with rfl | hc
          · exact List.mem_cons_self c ds
          · exact List.mem_cons_of_mem d (ih (by rw [hs]; exact List.mem_cons_self l0 ls) hc)
        · exact List.mem_cons_of_mem d (ih (by rw [hs]; exact List.mem_cons_of_mem l0 hl) hc)

theorem pyStrip_eq_nil_iff {s : List Char} :
    pyStrip s = [] ↔ ∀ c ∈ s, isSpaceChar c = true := by
  unfold pyStrip
  rw [List.reverse_eq_nil_iff, List.dropWhile_eq_nil_iff]
  constructor
  · intro h c hc
    by_contra hsp
    have hc2 : c ∈ s.dropWhile isSpaceChar := by
      have hsplit : s.takeWhile isSpaceChar ++ s.dropWhile isSpaceChar = s :=
        List.takeWhile_append_dropWhile isSpaceChar s
      rw [← hsplit] at hc
      rcases List.mem_append.mp hc with hc | hc
      · exact absurd (List.mem_takeWhile_imp hc) hsp
      · exact hc
    exact hsp (h c (List.mem_reverse.mpr hc2))
  · intro h c hc
    exact h c ((List.dropWhile_sublist isSpaceChar).subset (List.mem_reverse.mp hc))

theorem isMarker_nil : isMarker [] = false := by decide

/-- On an all-whitespace page every line strips to nothing. -/
theorem line_strip_nil_of_page_strip_nil {pg l : List Char}
    (hp : pyStrip pg = []) (hl : l ∈ splitOnChar '\n' pg) :
    pyStrip l = [] := by
  rw [pyStrip_eq_nil_iff] at hp ⊢
  intro c hc
  exact hp c (mem_of_mem_splitOnChar hl hc)

theorem processLine_articles_eq_nil (n : Nat) (st : ExtractState)
    (l : List Char) :
    (processLine n st l).articles = [] ↔
      st.articles = [] ∧ isMarker (pyStrip l) = false := by
  unfold processLine isMarker
  by_cases h1 : inStr (chars "第") (pyStrip l) = true ∧
      inStr (chars "章") (pyStrip l) = true
  · simp [h1, h1.1, h1.2]
  · rw [if_neg h1]
    by_cases h2 : inStr (chars "第") (pyStrip l) = true ∧
        inStr (chars "条") (pyStrip l) = true
    · simp [h2, h2.1, h2.2]
    · rw [if_neg h2]
      have hm : ((inStr (chars "第") (pyStrip l) &&
          inStr (chars "章") (pyStrip l)) ||
          (inStr (chars "第") (pyStrip l) &&
          inStr (chars "条") (pyStrip l))) = false := by
        rw [Bool.or_eq_false_iff, Bool.and_eq_false_iff, Bool.and_eq_false_iff]
        constructor
        · by_cases hd : inStr (chars "第") (pyStrip l) = true
          · right
            by_cases hz : inStr (chars "章") (pyStrip l) = true
            · exact absurd ⟨hd, hz⟩ h1
            · simpa using hz
          · left
            simpa using hd
        · by_cases hd : inStr (chars "第") (pyStrip l) = true
          · right
            by_cases ht : inStr (chars "条") (pyStrip l) = true
            · exact absurd ⟨hd, ht⟩ h2
            · simpa using ht
          · left
            simpa using hd
      by_cases h3 : st.hasCurrent = true ∧ pyStrip l ≠ []
      · rw [if_pos h3]
        cases ha : st.articles with
        | nil => simp [ha, hm]
        | cons a rest => simp [ha, hm]
      · rw [if_neg h3]
        simp [hm]

theorem foldl_processLine_eq_nil (n : Nat) :
    ∀ (ls : List (List Char)) (st : ExtractState),
      (ls.foldl (processLine n) st).articles = [] ↔
        st.articles = [] ∧ ∀ l ∈ ls, isMarker (pyStrip l) = false := by
  intro ls
  induction ls with
  | nil => intro st; simp
  | cons l ls ih =>
    intro st
    rw [List.foldl_cons, ih, processLine_articles_eq_nil]
    constructor
    · rintro ⟨⟨h1, h2⟩, h3⟩
      exact ⟨h1, fun l' hl' => by
        rcases List.mem_cons.mp hl' with rfl | hl'
        · exact h2
        · exact h3 l' hl'⟩
    · rintro ⟨h1, h2⟩
      exact ⟨⟨h1, h2 l (List.mem_cons_self l ls)⟩,
        fun l' hl' => h2 l' (List.mem_cons_of_mem l hl')⟩

theorem foldl_processPage_eq_nil :
    ∀ (ps : List (Nat × List Char)) (st : ExtractState),
      (ps.foldl processPage st).articles = [] ↔
        st.articles = [] ∧ ∀ p ∈ ps, ∀ l ∈ splitOnChar '\n' p.2,
          isMarker (pyStrip l) = false := by
  intro ps
  induction ps with
  | nil => intro st; simp
  | cons p ps ih =>
    intro st
    rw [List.foldl_cons, ih]
    by_cases hp : pyStrip p.2 ≠ []
    · rw [processPage, if_pos hp, foldl_processLine_eq_nil]
      constructor
      · rintro ⟨⟨h1, h2⟩, h3⟩
        refine ⟨h1, fun q hq => ?_⟩
        rcases List.mem_cons.mp hq with rfl | hq
        · exact h2
        · exact h3 q hq
      · rintro ⟨h1, h2⟩
        exact ⟨⟨h1, h2 p (List.mem_cons_self p ps)⟩,
          fun q hq => h2 q (List.mem_cons_of_mem p hq)⟩
    · rw [processPage, if_neg hp]
      push_neg at hp
      constructor
      · rintro ⟨h1, h2⟩
        refine ⟨h1, fun q hq => ?_⟩
        rcases List.mem_cons.mp hq with rfl | hq
        · intro l hl
          rw [line_strip_nil_of_page_strip_nil hp hl]
          exact isMarker_nil
        · exact h2 q hq
      · rintro ⟨h1, h2⟩
        exact ⟨h1, fun q hq => h2 q (List.mem_cons_of_mem p hq)⟩

theorem extractUnits_eq_nil_iff (pages : List (List Char)) :
    extractUnits pages = [] ↔ hasMarkerLine pages = false := by
  unfold extractUnits hasMarkerLine
  rw [List.reverse_eq_nil_iff, foldl_processPage_eq_nil, List.any_eq_false]
  constructor
  · rintro ⟨-, h⟩ pg hpg
    rw [Bool.not_eq_true, List.any_eq_false]
    intro l hl
    rw [Bool.not_eq_true]
    obtain ⟨i, hi, hget⟩ := List.mem_iff_getElem.mp hpg
    have hienum : (i, pg) ∈ pages.enum := by
      have hlen : i < pages.enum.length := by simpa [List.enum_length] using hi
      have hgete : pages.enum[i] = (i, pg) := by
        rw [List.getElem_enum, hget]
      exact hgete ▸ List.getElem_mem hlen
    exact h (i, pg) hienum l hl
  · intro h
    refine ⟨rfl, fun p hp l hl => ?_⟩
    have hsnd : p.2 ∈ pages := by
      have hm := List.enum_map_snd pages
      rw [← hm]
      exact List.mem_map_of_mem Prod.snd hp
    have h2 := h p.2 hsnd
    rw [Bool.not_eq_true, List.any_eq_false] at h2
    have h3 := h2 l hl
    rw [Bool.not_eq_true] at h3
    exact h3

/-- Inversion of `extract_pdf_content` on a readable source with at least
one unit. -/
theorem extract_pdf_content_ok (pages : List (List Char))
    (filename : List Char) (nowYear : Nat) (mtime : List Char)
    (hne : extractUnits pages ≠ []) :
    ∃ law, extract_pdf_content (.ok pages) filename nowYear mtime =
        some law ∧ law.content = extractUnits pages := by
  unfold extract_pdf_content
  dsimp only
  rw [if_neg hne]
  exact ⟨_, rfl, rfl⟩

/-- The structurer fails on a readable source exactly when no unit was
produced. -/
theorem extract_pdf_content_none (pages : List (List Char))
    (filename : List Char) (nowYear : Nat) (mtime : List Char) :
    extract_pdf_content (.ok pages) filename nowYear mtime = none ↔
      extractUnits pages = [] := by
  unfold extract_pdf_content
  dsimp only
  by_cases h : extractUnits pages = []
  · rw [if_pos h]
    simp [h]
  · rw [if_neg h]
    simp [h]

/-- C7: the structurer returns a record with non-empty content exactly
when some page has a line containing `第` together with `条` or `章`; with
no such line it returns no record, and then `build_index` records the
file's name in the invalid list. -/
theorem C7_structuring (pages : List (List Char)) (filename mtime : List Char)
    (nowYear : Nat) :
    (hasMarkerLine pages = true ↔
      ∃ law, extract_pdf_content (.ok pages) filename nowYear mtime =
        some law ∧ law.content ≠ []) ∧
    (hasMarkerLine pages = false →
      extract_pdf_content (.ok pages) filename nowYear mtime = none ∧
      (hasLawExt filename = true →
        (build_index nowYear [⟨filename, .ok pages, mtime⟩]).2 = [filename])) := by
  constructor
  · constructor
    · intro h
      have hne : extractUnits pages ≠ [] := by
        rw [Ne, extractUnits_eq_nil_iff, h]
        simp
      obtain ⟨law, hlaw, hcontent⟩ :=
        extract_pdf_content_ok pages filename nowYear mtime hne
      exact ⟨law, hlaw, by rw [hcontent]; exact hne⟩
    · rintro ⟨law, hlaw, hne⟩
      by_cases h : hasMarkerLine pages = true
      · exact h
      · exfalso
        have h0 : extractUnits pages = [] := by
          rw [extractUnits_eq_nil_iff]
          simpa using h
        rw [(extract_pdf_content_none pages filename nowYear mtime).mpr h0]
          at hlaw
        cases hlaw
  · intro h
    have h0 : extractUnits pages = [] := (extractUnits_eq_nil_iff pages).mpr h
    have hnone : extract_pdf_content (.ok pages) filename nowYear mtime =
        none := (extract_pdf_content_none pages filename nowYear mtime).mpr h0
    refine ⟨hnone, fun hext => ?_⟩
    simp [build_index, buildStep, hext, hnone]

/-! ## Parser-state invariants -/

/-- Whenever `current_article` is set, the newest unit is an article (the
source's `current_article` aliases the most recently appended article
dictionary). -/
def GoodSt (st : ExtractState) : Prop :=
  st.hasCurrent = true →
    ∃ a rest, st.articles = a :: rest ∧ a.type = articleType

theorem not_marker_conds {line : List Char} (h : isMarker line = false) :
    ¬(inStr (chars "第") line = true ∧ inStr (chars "章") line = true) ∧
    ¬(inStr (chars "第") line = true ∧ inStr (chars "条") line = true) := by
  unfold isMarker at h
  constructor
  · rintro ⟨h1, h2⟩
    rw [h1, h2] at h
    simp at h
  · rintro ⟨h1, h2⟩
    rw [h1, h2] at h
    simp at h

theorem processLine_good {st : ExtractState} (hg : GoodSt st) (n : Nat)
    (l : List Char) : GoodSt (processLine n st l) := by
  unfold processLine
  by_cases h1 : inStr (chars "第") (pyStrip l) = true ∧
      inStr (chars "章") (pyStrip l) = true
  · rw [if_pos h1]
    intro h
    cases h
  · rw [if_neg h1]
    by_cases h2 : inStr (chars "第") (pyStrip l) = true ∧
        inStr (chars "条") (pyStrip l) = true
    · rw [if_pos h2]
      intro _
      exact ⟨_, _, rfl, rfl⟩
    · rw [if_neg h2]
      by_cases h3 : st.hasCurrent = true ∧ pyStrip l ≠ []
      · rw [if_pos h3]
        obtain ⟨a, rest, ha, htype⟩ := hg h3.1
        rw [ha]
        intro _
        exact ⟨_, _, rfl, htype⟩
      · rw [if_neg h3]
        exact hg

theorem foldl_processLine_good (n : Nat) :
    ∀ (ls : List (List Char)) (st : ExtractState), GoodSt st →
      GoodSt (ls.foldl (processLine n) st) := by
  intro ls
  induction ls with
  | nil => intro st hg; exact hg
  | cons l ls ih =>
    intro st hg
    exact ih _ (processLine_good hg n l)

theorem processPage_good {st : ExtractState} (hg : GoodSt st)
    (p : Nat × List Char) : GoodSt (processPage st p) := by
  unfold processPage
  by_cases h : pyStrip p.2 ≠ []
  · rw [if_pos h]
    exact foldl_processLine_good p.1 _ st hg
  · rw [if_neg h]
    exact hg

theorem processLine_chapter_origin (n : Nat) (st : ExtractState)
    (l : List Char) (hg : GoodSt st) :
    ∀ u ∈ (processLine n st l).articles, u.type = chapterType →
      u ∈ st.articles ∨
        (u.content = pyStrip l ∧ inStr (chars "第") u.content = true ∧
          inStr (chars "章") u.content = true ∧ u.page = n + 1) := by
  intro u hu htype
  revert hu
  unfold processLine
  by_cases h1 : inStr (chars "第") (pyStrip l) = true ∧
      inStr (chars "章") (pyStrip l) = true
  · rw [if_pos h1]
    intro hu
    rcases List.mem_cons.mp hu with rfl | hu
    · exact Or.inr ⟨rfl, h1.1, h1.2, rfl⟩
    · exact Or.inl hu
  · rw [if_neg h1]
    by_cases h2 : inStr (chars "第") (pyStrip l) = true ∧
        inStr (chars "条") (pyStrip l) = true
    · rw [if_pos h2]
      intro hu
      rcases List.mem_cons.mp hu with rfl | hu
      · exact absurd (show articleType = chapterType from htype) (by decide)
      · exact Or.inl hu
    · rw [if_neg h2]
      by_cases h3 : st.hasCurrent = true ∧ pyStrip l ≠ []
      · rw [if_pos h3]
        obtain ⟨a, rest, ha, hatype⟩ := hg h3.1
        rw [ha]
        intro hu
        rcases List.mem_cons.mp hu with rfl | hu
        · refine absurd (show a.type = chapterType from htype) ?_
          rw [hatype]
          decide
        · exact Or.inl (List.mem_cons_of_mem a hu)
      · rw [if_neg h3]
        exact fun hu => Or.inl hu

theorem foldl_processLine_chapter_origin (n : Nat) :
    ∀ (ls : List (List Char)) (st : ExtractState), GoodSt st →
      ∀ u ∈ (ls.foldl (processLine n) st).articles, u.type = chapterType →
        u ∈ st.articles ∨ ∃ l ∈ ls,
          u.content = pyStrip l ∧ inStr (chars "第") u.content = true ∧
          inStr (chars "章") u.content = true ∧ u.page = n + 1 := by
  intro ls
  induction ls with
  | nil => intro st _ u hu _; exact Or.inl hu
  | cons l ls ih =>
    intro st hg u hu htype
    rcases ih (processLine n st l) (processLine_good hg n l) u hu htype with
      h | ⟨l', hl', hrest⟩
    · rcases processLine_chapter_origin n st l hg u h htype with h2 | h2
      · exact Or.inl h2
      · exact Or.inr ⟨l, List.mem_cons_self l ls, h2⟩
    · exact Or.inr ⟨l', List.mem_cons_of_mem l hl', hrest⟩

theorem foldl_processPage_chapter_origin :
    ∀ (ps : List (Nat × List Char)) (st : ExtractState), GoodSt st →
      ∀ u ∈ (ps.foldl processPage st).articles, u.type = chapterType →
        u ∈ st.articles ∨ ∃ p ∈ ps, ∃ l ∈ splitOnChar '\n' p.2,
          u.content = pyStrip l ∧ inStr (chars "第") u.content = true ∧
          inStr (chars "章") u.content = true ∧ u.page = p.1 + 1 := by
  intro ps
  induction ps with
  | nil => intro st _ u hu _; exact Or.inl hu
  | cons p ps ih =>
    intro st hg u hu htype
    rcases ih (processPage st p) (processPage_good hg p) u hu htype with
      h | ⟨p', hp', hrest⟩
    · revert h
      unfold processPage
      by_cases hp : pyStrip p.2 ≠ []
      · rw [if_pos hp]
        intro h
        rcases foldl_processLine_chapter_origin p.1 _ st hg u h htype with
          h2 | ⟨l, hl, hrest⟩
        · exact Or.inl h2
        · exact Or.inr ⟨p, List.mem_cons_self p ps, l, hl, hrest⟩
      · rw [if_neg hp]
        exact fun h => Or.inl h
    · exact Or.inr ⟨p', List.mem_cons_of_mem p hp', hrest⟩

/-- C8: (i) a Chapter unit's text is never extended — every chapter unit
in the output is verbatim one stripped marker line of the input, with its
page recorded; (ii) with a current article set, a non-empty non-marker
line appends `line + " "` to that article's accumulated text and changes
nothing else, whatever page it is on; (iii) in particular the pages
`["第一条 内容A", "续行B"]` produce exactly one Article unit whose text
contains both `内容A` and `续行B`. -/
theorem C8_accumulation :
    (∀ (pages : List (List Char)), ∀ u ∈ extractUnits pages,
      u.type = chapterType →
      ∃ p ∈ pages.enum, ∃ l ∈ splitOnChar '\n' p.2,
        u.content = pyStrip l ∧ inStr (chars "第") u.content = true ∧
        inStr (chars "章") u.content = true ∧ u.page = p.1 + 1) ∧
    (∀ (n : Nat) (a : ContentItem) (rest : List ContentItem)
      (l : List Char), isMarker (pyStrip l) = false → pyStrip l ≠ [] →
      processLine n ⟨a :: rest, true⟩ l =
        ⟨{ a with content := a.content ++ pyStrip l ++ [' '] } :: rest,
          true⟩) ∧
    extractUnits [chars "第一条 内容A", chars "续行B"] =
      [⟨articleType, chars "第一条 内容A 续行B ", 1⟩] ∧
    inStr (chars "内容A") (chars "第一条 内容A 续行B ") = true ∧
    inStr (chars "续行B") (chars "第一条 内容A 续行B ") = true := by
  refine ⟨?_, ?_, by decide, by decide, by decide⟩
  · intro pages u hu htype
    have hginit : GoodSt ⟨[], false⟩ := by
      intro h
      cases h
    have hmem : u ∈ (pages.enum.foldl processPage ⟨[], false⟩).articles :=
      List.mem_reverse.mp (by exact hu)
    rcases foldl_processPage_chapter_origin pages.enum ⟨[], false⟩ hginit u
      hmem htype with h | h
    · cases h
    · exact h
  · intro n a rest l hm hne
    unfold processLine
    rw [if_neg (not_marker_conds hm).1, if_neg (not_marker_conds hm).2,
      if_pos ⟨rfl, hne⟩]

/-! ## Index-builder lemmas -/

/-- One build step only ever appends to the accumulator. -/
theorem buildStep_decompose (nowYear : Nat)
    (acc : List Law × List (List Char)) (f : FileEntry) :
    buildStep nowYear acc f =
      (acc.1 ++ (buildStep nowYear ([], []) f).1,
       acc.2 ++ (buildStep nowYear ([], []) f).2) := by
  unfold buildStep
  by_cases h : hasLawExt f.filename = true
  · rw [if_pos h, if_pos h]
    cases hx : extract_pdf_content f.source f.filename nowYear f.mtime <;> simp
  · rw [if_neg h, if_neg h]
    simp

/-- Folding the build over more files appends to any accumulator what a
fresh build of those files would produce. -/
theorem build_foldl_append (nowYear : Nat) :
    ∀ (fs : List FileEntry) (acc : List Law × List (List Char)),
      fs.foldl (buildStep nowYear) acc =
        (acc.1 ++ (build_index nowYear fs).1,
         acc.2 ++ (build_index nowYear fs).2) := by
  intro fs
  induction fs with
  | nil => intro acc; simp [build_index]
  | cons f fs ih =>
    intro acc
    have hbi : build_index nowYear (f :: fs) =
        fs.foldl (buildStep nowYear) (buildStep nowYear ([], []) f) := rfl
    rw [List.foldl_cons, ih, hbi, ih, buildStep_decompose]
    simp [List.append_assoc]

theorem build_index_append (nowYear : Nat) (l1 l2 : List FileEntry) :
    build_index nowYear (l1 ++ l2) =
      l2.foldl (buildStep nowYear) (build_index nowYear l1) := by
  unfold build_index
  rw [List.foldl_append]

/-- C9: an extraction-layer error for one file is caught: the file's name
goes to the invalid list and the laws produced for the other files are
exactly those of a build without the failing file — the failure neither
aborts the batch nor perturbs other documents. -/
theorem C9_error_isolation (nowYear : Nat) (pre post : List FileEntry)
    (f : FileEntry) (e : Unit) (hsrc : f.source = .error e)
    (hext : hasLawExt f.filename = true) :
    (build_index nowYear (pre ++ f :: post)).1 =
      (build_index nowYear (pre ++ post)).1 ∧
    f.filename ∈ (build_index nowYear (pre ++ f :: post)).2 := by
  have hf : buildStep nowYear ([], []) f = ([], [f.filename]) := by
    unfold buildStep
    rw [if_pos hext, hsrc]
    rfl
  rw [build_index_append nowYear pre (f :: post), List.foldl_cons,
    build_foldl_append, buildStep_decompose, hf,
    build_index_append nowYear pre post, build_foldl_append]
  constructor
  · simp
  · simp

/-- Witness for C9: a failing `bad.pdf` between two good files. -/
theorem C9_error_isolation_witness :
    (build_index 2024
      ([⟨chars "a_2020.docx", .ok [chars "第一条 甲"], chars "m1"⟩] ++
        ⟨chars "bad.pdf", .error (), chars "m2"⟩ ::
        [⟨chars "b_2021.pdf", .ok [chars "第二条 乙"], chars "m3"⟩])).1 =
    (build_index 2024
      ([⟨chars "a_2020.docx", .ok [chars "第一条 甲"], chars "m1"⟩] ++
        [⟨chars "b_2021.pdf", .ok [chars "第二条 乙"], chars "m3"⟩])).1 ∧
    chars "bad.pdf" ∈ (build_index 2024
      ([⟨chars "a_2020.docx", .ok [chars "第一条 甲"], chars "m1"⟩] ++
        ⟨chars "bad.pdf", .error (), chars "m2"⟩ ::
        [⟨chars "b_2021.pdf", .ok [chars "第二条 乙"], chars "m3"⟩])).2 :=
  C9_error_isolation 2024
    [⟨chars "a_2020.docx", .ok [chars "第一条 甲"], chars "m1"⟩]
    [⟨chars "b_2021.pdf", .ok [chars "第二条 乙"], chars "m3"⟩]
    ⟨chars "bad.pdf", .error (), chars "m2"⟩ () rfl (by decide)

/-! ## Per-law result inversion -/

/-- A law's contributed result is always built by `mkSearchResult` from
some matched-pages list. -/
theorem lawResult_some_some {keyword kwLower law_type : List Char}
    {law : Law} {r : SearchResult}
    (h : lawResult keyword kwLower law_type law = some (some r)) :
    ∃ mp, r = mkSearchResult law mp := by
  unfold lawResult at h
  by_cases hc : law_type ≠ chars "all" ∧ pyLower law.title ≠ pyLower law_type
  · rw [if_pos hc] at h
    simp at h
  · rw [if_neg hc] at h
    cases hd : processContent kwLower law.content with
    | none => rw [hd] at h; cases h
    | some d =>
      rw [hd] at h
      dsimp only at h
      by_cases hmp : matchedPagesOf keyword d = []
      · rw [if_pos hmp] at h
        simp at h
      · rw [if_neg hmp] at h
        simp only [Option.some.injEq] at h
        exact ⟨matchedPagesOf keyword d, h.symm⟩

/-- C10: a document record lacking `total_pages` still produces a search
result, whose `total_pages` is `1` (the `law.get("total_pages", 1)`
default); the other copied fields come over verbatim. -/
theorem C10_total_pages_default (law : Law) (keyword : List Char)
    (rs : List SearchResult) (hp : law.total_pages = none)
    (hs : search keyword (chars "all") [law] = some rs) :
    ∀ r ∈ rs, r.total_pages = 1 ∧ r.title = law.title ∧
      r.year = law.year ∧ r.filename = law.filename := by
  intro r hr
  unfold search searchUnsorted at hs
  cases hlr : lawResult keyword (pyLower keyword) (chars "all") law with
  | none =>
    rw [show List.mapM (lawResult keyword (pyLower keyword) (chars "all"))
      [law] = (lawResult keyword (pyLower keyword) (chars "all") law).bind
        (fun x => some [x]) from by
        simp [List.mapM, List.mapM.loop]] at hs
    rw [hlr] at hs
    simp at hs
  | some o =>
    rw [show List.mapM (lawResult keyword (pyLower keyword) (chars "all"))
      [law] = (lawResult keyword (pyLower keyword) (chars "all") law).bind
        (fun x => some [x]) from by
        simp [List.mapM, List.mapM.loop]] at hs
    rw [hlr] at hs
    cases o with
    | none =>
      simp [pySortDesc] at hs
      subst hs
      cases hr
    | some r0 =>
      simp [pySortDesc, insertDesc] at hs
      subst hs
      rcases List.mem_singleton.mp hr with rfl
      obtain ⟨mp, rfl⟩ := lawResult_some_some hlr
      refine ⟨?_, rfl, rfl, rfl⟩
      simp [mkSearchResult, hp]

/-- The document record of the C10 witness: `sampleLaw` without a
`total_pages` field. -/
def lawC10 : Law :=
  ⟨chars "刑法", .str (chars "1997"), chars "刑法_1997.docx",
    [⟨articleType, chars "第一条 盗窃 ", 1⟩], none, chars "2024-01-01"⟩

/-- The single result of the C10 witness run. -/
def rC10 : SearchResult :=
  mkSearchResult lawC10
    [⟨chars "第一条",
      highlight_all_keywords (chars "第一条 盗窃 ") [Span.mk 4 5] (chars "盗"),
      chars "盗", 1⟩]

/-- Witness for C10 on a record lacking `total_pages`. -/
theorem C10_total_pages_default_witness :
    rC10.total_pages = 1 ∧ rC10.title = lawC10.title ∧
      rC10.year = lawC10.year ∧ rC10.filename = lawC10.filename :=
  C10_total_pages_default lawC10 (chars "盗") [rC10] rfl (by decide)
    rC10 (List.mem_singleton.mpr rfl)

end FindLaw
